import Mathlib

/-!
Shallow embedding of the tone-comparator repository's waveform core
(`src/utils/util_funcs.py` and `src/utils/wfm.py`).

Sample buffers are modelled as `List ℚ` (exact rationals in place of IEEE
floats; every arithmetic step of the embedded code is rational except the
square root inside `np.std`, which is modelled by `Real.sqrt`, and the DFT
of `calculate_fundamental_frequency`, which is modelled over `ℂ`).
Randomness (the `numpy` normal draw of period lengths) is externalized: the
generation function takes the drawn, already-rounded period-length sequence
as an explicit argument.
-/

namespace ToneComp

/-! ## util_funcs.analyze_transitions (src/utils/util_funcs.py lines 6-42) -/

/-- Model of the boolean crossing mask built over adjacent sample pairs:
`(wfm[:-1] < threshold) & (wfm[1:] >= threshold)` for a positive edge and
`(wfm[:-1] > threshold) & (wfm[1:] <= threshold)` for a negative edge. -/
def crossings (wfm : List ℚ) (threshold : ℚ) (pos_edge : Bool) : List Bool :=
  (wfm.zip wfm.tail).map (fun ab =>
    if pos_edge then decide (ab.1 < threshold) && decide (threshold ≤ ab.2)
    else decide (threshold < ab.1) && decide (ab.2 ≤ threshold))

/-- Model of `np.where(mask)[0]`: the indices at which the mask is true,
in increasing order. -/
def npWhere (bs : List Bool) : List ℕ :=
  (List.range bs.length).filter (fun i => bs.getD i false)

/-- Model of `np.where(crossings)[0] + 1`: the transition indices, each the
index of the second sample of its crossing pair. -/
def transition_indices (wfm : List ℚ) (threshold : ℚ) (pos_edge : Bool) : List ℕ :=
  (npWhere (crossings wfm threshold pos_edge)).map (· + 1)

/-- Model of `np.diff` on an index list: consecutive differences. -/
def npDiff (l : List ℕ) : List ℤ :=
  (l.zip l.tail).map (fun ab => (ab.2 : ℤ) - (ab.1 : ℤ))

/-- Model of `np.mean` on an integer list, as an exact rational. -/
def npMean (l : List ℤ) : ℚ :=
  ((l.sum : ℚ)) / (l.length : ℚ)

/-- Model of the radicand of `np.std`: the population variance, the mean of
the squared deviations from the mean. -/
def npVarPop (l : List ℤ) : ℚ :=
  ((l.map (fun x => ((x : ℚ) - npMean l) ^ 2)).sum) / (l.length : ℚ)

/-- Result triple of `analyze_transitions`: mean gap, standard deviation of
the gaps, transition count. -/
structure TransStats where
  mean : ℚ
  std : ℝ
  count : ℕ

/-- Model of `analyze_transitions`: build the crossing mask, take the
transition indices, and when at least two exist return the mean and the
population standard deviation of their consecutive gaps; otherwise return
zeros together with the raw count. -/
noncomputable def analyze_transitions (wfm : List ℚ) (threshold : ℚ) (pos_edge : Bool) :
    TransStats :=
  if 2 ≤ (transition_indices wfm threshold pos_edge).length then
    { mean := npMean (npDiff (transition_indices wfm threshold pos_edge))
      std := Real.sqrt ((npVarPop (npDiff (transition_indices wfm threshold pos_edge)) : ℝ))
      count := (transition_indices wfm threshold pos_edge).length }
  else
    { mean := 0, std := 0, count := (transition_indices wfm threshold pos_edge).length }

/-- The crossing condition the spec states for a transition at index `i`
(the second sample of the pair): rising means `wfm[i-1] < t ≤ wfm[i]`,
falling means `wfm[i] ≤ t < wfm[i-1]`. -/
def crossCond (wfm : List ℚ) (threshold : ℚ) (pos_edge : Bool) (i : ℕ) : Prop :=
  if pos_edge then wfm.getD (i - 1) 0 < threshold ∧ threshold ≤ wfm.getD i 0
  else threshold < wfm.getD (i - 1) 0 ∧ wfm.getD i 0 ≤ threshold

instance (wfm : List ℚ) (t : ℚ) (p : Bool) (i : ℕ) : Decidable (crossCond wfm t p i) := by
  unfold crossCond
  split <;> infer_instance

lemma length_crossings (wfm : List ℚ) (t : ℚ) (p : Bool) :
    (crossings wfm t p).length = wfm.length - 1 := by
  simp [crossings, List.length_zip, List.length_tail]

lemma getD_crossings (wfm : List ℚ) (t : ℚ) (p : Bool) (m : ℕ)
    (hm : m < (crossings wfm t p).length) :
    (crossings wfm t p).getD m false = decide (crossCond wfm t p (m + 1)) := by
  have hlen := length_crossings wfm t p
  cases wfm with
  | nil => simp [crossings] at hm
  | cons a l =>
    have hmw : m < (a :: l).length := by
      simp only [List.length_cons] at hlen ⊢; omega
    have hml : m < l.length := by
      simp only [List.length_cons] at hlen; omega
    rw [List.getD_eq_getElem _ _ hm]
    unfold crossCond
    simp only [Nat.add_sub_cancel, List.getD_cons_succ]
    rw [List.getD_eq_getElem _ _ hmw, List.getD_eq_getElem _ _ hml]
    simp only [crossings, List.tail_cons, List.getElem_map, List.getElem_zip]
    cases p <;> simp

lemma mem_npWhere (bs : List Bool) (m : ℕ) :
    m ∈ npWhere bs ↔ m < bs.length ∧ bs.getD m false = true := by
  simp [npWhere, List.mem_filter, List.mem_range]

/-- Membership characterization of the transition-index list: exactly the
indices `i ≥ 1` below the buffer length whose sample pair crosses the
threshold in the requested direction. -/
lemma mem_transition_indices (wfm : List ℚ) (t : ℚ) (p : Bool) (i : ℕ) :
    i ∈ transition_indices wfm t p ↔
      1 ≤ i ∧ i < wfm.length ∧ crossCond wfm t p i := by
  unfold transition_indices
  rw [List.mem_map]
  constructor
  · rintro ⟨m, hm, rfl⟩
    rw [mem_npWhere] at hm
    obtain ⟨hmlt, hmtrue⟩ := hm
    have := getD_crossings wfm t p m hmlt
    rw [this] at hmtrue
    have hc : crossCond wfm t p (m + 1) := of_decide_eq_true hmtrue
    have hlen := length_crossings wfm t p
    exact ⟨by omega, by omega, hc⟩
  · rintro ⟨h1, h2, hc⟩
    refine ⟨i - 1, ?_, by omega⟩
    rw [mem_npWhere]
    have hlen := length_crossings wfm t p
    have hmlt : i - 1 < (crossings wfm t p).length := by omega
    refine ⟨hmlt, ?_⟩
    rw [getD_crossings wfm t p _ hmlt]
    have : i - 1 + 1 = i := by omega
    rw [this]
    exact decide_eq_true hc

lemma transition_indices_of_short (wfm : List ℚ) (t : ℚ) (p : Bool)
    (h : wfm.length < 2) : transition_indices wfm t p = [] := by
  have h0 : wfm.length - 1 = 0 := by omega
  simp [transition_indices, npWhere, length_crossings, h0]

/-- C10: transition analysis is total on short buffers: on every buffer with
fewer than 2 samples it returns mean 0, standard deviation 0 and count 0,
since no consecutive-sample pair exists. -/
theorem c10_analyze_transitions_short_buffer (wfm : List ℚ) (t : ℚ) (pos_edge : Bool)
    (h : wfm.length < 2) :
    analyze_transitions wfm t pos_edge = ⟨0, 0, 0⟩ := by
  have htis := transition_indices_of_short wfm t pos_edge h
  simp [analyze_transitions, htis]

/-- C10 witness: the empty buffer is analyzed without error and yields zeros. -/
theorem c10_analyze_transitions_short_buffer_witness :
    ([] : List ℚ).length < 2 ∧ analyze_transitions [] 1 true = ⟨0, 0, 0⟩ :=
  ⟨by decide, c10_analyze_transitions_short_buffer [] 1 true (by decide)⟩

/-- C4: when fewer than 2 threshold crossings are found, transition analysis
returns the raw crossing count (which is then 0 or 1) with mean 0 and
standard deviation 0. -/
theorem c4_analyze_transitions_few_crossings (wfm : List ℚ) (t : ℚ) (pos_edge : Bool)
    (h : (transition_indices wfm t pos_edge).length < 2) :
    analyze_transitions wfm t pos_edge = ⟨0, 0, (transition_indices wfm t pos_edge).length⟩
    ∧ ((transition_indices wfm t pos_edge).length = 0
        ∨ (transition_indices wfm t pos_edge).length = 1) := by
  constructor
  · unfold analyze_transitions
    rw [if_neg (by omega)]
  · omega

/-- C4 witness: a constant buffer has no crossings, so analysis reports
count 0 and zero statistics. -/
theorem c4_analyze_transitions_few_crossings_witness :
    (transition_indices [0, 0, 0] 1 true).length < 2
    ∧ (analyze_transitions [0, 0, 0] 1 true
        = ⟨0, 0, (transition_indices [0, 0, 0] 1 true).length⟩
      ∧ ((transition_indices [0, 0, 0] 1 true).length = 0
          ∨ (transition_indices [0, 0, 0] 1 true).length = 1)) :=
  ⟨by decide, c4_analyze_transitions_few_crossings [0, 0, 0] 1 true (by decide)⟩

/-- C3: transition analysis reports exactly the indices that are the second
sample of a crossing pair (rising: previous below, current at or above the
threshold; falling: previous above, current at or below); its count is the
number of such indices, and with at least 2 of them it returns the mean and
the population standard deviation of the gaps between consecutive
transition indices. -/
theorem c3_analyze_transitions_contract (wfm : List ℚ) (t : ℚ) (pos_edge : Bool) :
    (∀ i : ℕ, i ∈ transition_indices wfm t pos_edge ↔
        1 ≤ i ∧ i < wfm.length ∧ crossCond wfm t pos_edge i)
    ∧ (analyze_transitions wfm t pos_edge).count = (transition_indices wfm t pos_edge).length
    ∧ (2 ≤ (transition_indices wfm t pos_edge).length →
        (analyze_transitions wfm t pos_edge).mean
            = npMean (npDiff (transition_indices wfm t pos_edge))
        ∧ (analyze_transitions wfm t pos_edge).std
            = Real.sqrt ((npVarPop (npDiff (transition_indices wfm t pos_edge)) : ℝ))) := by
  refine ⟨fun i => mem_transition_indices wfm t pos_edge i, ?_, ?_⟩
  · unfold analyze_transitions
    split <;> rfl
  · intro h2
    unfold analyze_transitions
    rw [if_pos h2]
    exact ⟨rfl, rfl⟩

/-! ## util_funcs.calculate_fundamental_frequency (src/utils/util_funcs.py lines 44-68) -/

/-- Model of bin `k` of `np.fft.rfft(wfm)`: the discrete Fourier sum
`Σ_n wfm[n] · exp(-2πi·k·n/N)`. -/
noncomputable def dftBin (wfm : List ℚ) (k : ℕ) : ℂ :=
  ∑ n ∈ Finset.range wfm.length,
    ((wfm.getD n 0 : ℚ) : ℂ)
      * Complex.exp (-(2 * (Real.pi : ℂ) * Complex.I * (k : ℂ) * (n : ℂ)) / (wfm.length : ℂ))

/-- Model of `np.fft.rfft`: the bins `k = 0 .. N/2` (integer division). -/
noncomputable def rfft (wfm : List ℚ) : List ℂ :=
  (List.range (wfm.length / 2 + 1)).map (fun k => dftBin wfm k)

/-- Model of `np.fft.rfftfreq(N, d=1/sample_rate)`: the bin frequencies
`k · sample_rate / N` for `k = 0 .. N/2`. -/
def rfftfreq (N : ℕ) (sample_rate_Hz : ℚ) : List ℚ :=
  (List.range (N / 2 + 1)).map (fun (k : ℕ) => (k : ℚ) * sample_rate_Hz / (N : ℚ))

/-- Model of `magnitude = np.abs(fft); magnitude[0] = 0`: the magnitude
spectrum with the DC bin set to zero. -/
noncomputable def magSpectrumZeroDC (wfm : List ℚ) : List ℝ :=
  ((rfft wfm).map (fun z => Complex.abs z)).set 0 0

open scoped Classical in
/-- Model of `np.argmax`: index of the first occurrence of the maximum. -/
noncomputable def npArgmax : List ℝ → ℕ
  | [] => 0
  | [_] => 0
  | x :: y :: ys =>
      if x < (y :: ys).getD (npArgmax (y :: ys)) 0 then npArgmax (y :: ys) + 1 else 0

/-- Model of `calculate_fundamental_frequency`: the frequency of the
peak-magnitude bin of the DC-zeroed rfft magnitude spectrum. -/
noncomputable def calculate_fundamental_frequency (wfm : List ℚ) (sample_rate_Hz : ℚ) : ℚ :=
  (rfftfreq wfm.length sample_rate_Hz).getD (npArgmax (magSpectrumZeroDC wfm)) 0

lemma npArgmax_lt_length : ∀ l : List ℝ, l ≠ [] → npArgmax l < l.length := by
  intro l h
  induction l with
  | nil => exact absurd rfl h
  | cons x xs ih =>
    cases xs with
    | nil => simp [npArgmax]
    | cons y ys =>
      rw [npArgmax]
      split
      · have := ih (by simp)
        simpa using Nat.succ_lt_succ this
      · simp

lemma getD_le_npArgmax : ∀ (l : List ℝ) (j : ℕ), j < l.length →
    l.getD j 0 ≤ l.getD (npArgmax l) 0 := by
  intro l
  induction l with
  | nil => intro j hj; simp at hj
  | cons x xs ih =>
    intro j hj
    cases xs with
    | nil =>
      have hj0 : j = 0 := by
        simp only [List.length_cons, List.length_nil] at hj
        omega
      subst hj0
      simp [npArgmax]
    | cons y ys =>
      rw [npArgmax]
      split
      · rename_i hlt
        rw [List.getD_cons_succ]
        cases j with
        | zero => exact le_of_lt (by simpa using hlt)
        | succ m =>
          rw [List.getD_cons_succ]
          exact ih m (by simpa using hj)
      · rename_i hge
        rw [List.getD_cons_zero]
        cases j with
        | zero => simp
        | succ m =>
          rw [List.getD_cons_succ]
          exact le_trans (ih m (by simpa using hj)) (le_of_not_lt hge)

lemma length_magSpectrumZeroDC (wfm : List ℚ) :
    (magSpectrumZeroDC wfm).length = wfm.length / 2 + 1 := by
  simp [magSpectrumZeroDC, rfft]

/-- C5: the fundamental-frequency estimate is the frequency `k · sr / N` of a
bin `k` whose magnitude, in the DC-zeroed rfft magnitude spectrum, is maximal
over all bins; the DC bin itself holds magnitude 0 and every non-DC bin holds
the DFT magnitude `|dftBin wfm j|`. -/
theorem c5_fundamental_frequency_peak (wfm : List ℚ) (sample_rate_Hz : ℚ)
    (h : wfm ≠ []) :
    ∃ k : ℕ, k < wfm.length / 2 + 1
      ∧ calculate_fundamental_frequency wfm sample_rate_Hz
          = (k : ℚ) * sample_rate_Hz / (wfm.length : ℚ)
      ∧ (magSpectrumZeroDC wfm).getD 0 0 = 0
      ∧ (∀ j : ℕ, 1 ≤ j → j < wfm.length / 2 + 1 →
          (magSpectrumZeroDC wfm).getD j 0 = Complex.abs (dftBin wfm j))
      ∧ (∀ j : ℕ, j < wfm.length / 2 + 1 →
          (magSpectrumZeroDC wfm).getD j 0 ≤ (magSpectrumZeroDC wfm).getD k 0) := by
  have hmlen := length_magSpectrumZeroDC wfm
  have hmne : magSpectrumZeroDC wfm ≠ [] := by
    intro he
    rw [he] at hmlen
    simp at hmlen
  have hk : npArgmax (magSpectrumZeroDC wfm) < wfm.length / 2 + 1 := by
    have := npArgmax_lt_length (magSpectrumZeroDC wfm) hmne
    omega
  refine ⟨npArgmax (magSpectrumZeroDC wfm), hk, ?_, ?_, ?_, ?_⟩
  · have hb : npArgmax (magSpectrumZeroDC wfm) <
        (rfftfreq wfm.length sample_rate_Hz).length := by
      simpa [rfftfreq] using hk
    unfold calculate_fundamental_frequency
    rw [List.getD_eq_getElem _ _ hb]
    unfold rfftfreq
    rw [List.getElem_map, List.getElem_range]
  · unfold magSpectrumZeroDC
    have hb : 0 < (((rfft wfm).map (fun z => Complex.abs z)).set 0 0).length := by
      simp [rfft]
    rw [List.getD_eq_getElem _ _ hb, List.getElem_set_self]
  · intro j h1 hj
    unfold magSpectrumZeroDC
    have hb : j < (((rfft wfm).map (fun z => Complex.abs z)).set 0 0).length := by
      simp [rfft]
      omega
    rw [List.getD_eq_getElem _ _ hb, List.getElem_set_of_ne (by omega), List.getElem_map]
    unfold rfft
    rw [List.getElem_map, List.getElem_range]
  · intro j hj
    exact getD_le_npArgmax (magSpectrumZeroDC wfm) j (by omega)

/-- C5 witness: a concrete nonempty buffer satisfies the peak-bin contract. -/
theorem c5_fundamental_frequency_peak_witness :
    ([1] : List ℚ) ≠ []
    ∧ ∃ k : ℕ, k < ([1] : List ℚ).length / 2 + 1
      ∧ calculate_fundamental_frequency [1] 2
          = (k : ℚ) * 2 / (([1] : List ℚ).length : ℚ)
      ∧ (magSpectrumZeroDC [1]).getD 0 0 = 0
      ∧ (∀ j : ℕ, 1 ≤ j → j < ([1] : List ℚ).length / 2 + 1 →
          (magSpectrumZeroDC [1]).getD j 0 = Complex.abs (dftBin [1] j))
      ∧ (∀ j : ℕ, j < ([1] : List ℚ).length / 2 + 1 →
          (magSpectrumZeroDC [1]).getD j 0 ≤ (magSpectrumZeroDC [1]).getD k 0) :=
  ⟨by simp, c5_fundamental_frequency_peak [1] 2 (by simp)⟩

/-! ## wfm.py: Wfm and WfmSquare constructors, file loading
(src/utils/wfm.py lines 18-112) -/

/-- Python truthiness of an optional float argument: `None` and `0.0` are
falsy. -/
def qTruthy : Option ℚ → Bool
  | none => false
  | some x => decide (x ≠ 0)

/-- Python truthiness of an optional int argument: `None` and `0` are falsy. -/
def natTruthy : Option ℕ → Bool
  | none => false
  | some n => decide (n ≠ 0)

/-- Python truthiness of an optional string argument (strings modelled as
character lists): `None` and the empty string are falsy. -/
def strTruthy : Option (List Char) → Bool
  | none => false
  | some s => decide (s ≠ [])

/-- Error kinds raised by the waveform constructors (each a `ValueError` in
the code, distinguished here by its message). -/
inductive WfmErr where
  | invalidParameter
  | unspecifiedSource
  | invalidInput
deriving DecidableEq

/-- Content of a PCM container as the `wave` module hands it over: header
fields and the interleaved integer samples decoded by `np.frombuffer`. -/
structure WaveFile where
  framerate : ℕ
  nchannels : ℕ
  sampwidth : ℕ
  frames : List ℤ
deriving DecidableEq

/-- Truncation toward zero, the effect of `ndarray.astype` on an integral
target dtype. -/
def intTrunc (q : ℚ) : ℤ :=
  if 0 ≤ q then ⌊q⌋ else ⌈q⌉

/-- Rows of `audio.reshape(-1, n)`: the frame list cut into channel groups
of size `n`. -/
def chunkFrames : ℕ → List ℤ → List (List ℤ)
  | _, [] => []
  | 0, l => [l]
  | n + 1, x :: xs => ((x :: xs).take (n + 1)) :: chunkFrames (n + 1) ((x :: xs).drop (n + 1))
termination_by n l => l.length
decreasing_by
  simp
  omega

/-- Model of the mono conversion: with more than one channel, average each
channel group and truncate back to the integer dtype. -/
def toMono (nch : ℕ) (data : List ℤ) : List ℤ :=
  if 1 < nch then
    (chunkFrames nch data).map (fun g => intTrunc ((g.sum : ℚ) / (nch : ℚ)))
  else data

/-- Maximum of the integer dtype chosen from the sample width
(`np.iinfo(dtype).max`). -/
def iinfoMax (sampwidth : ℕ) : ℤ :=
  if sampwidth = 2 then 32767 else 2147483647

/-- Model of `Wfm._read_wave`: the sample rate is the container header's
frame rate; sample width 2 maps to int16 and 4 to int32, anything else is an
InvalidInput error; multi-channel data is averaged to mono; the buffer is
normalized by the dtype's maximum integer. -/
def readWave (f : WaveFile) : Except WfmErr (ℕ × List ℚ) :=
  if f.sampwidth = 2 ∨ f.sampwidth = 4 then
    Except.ok (f.framerate,
      (toMono f.nchannels f.frames).map
        (fun (v : ℤ) => (v : ℚ) / (iinfoMax f.sampwidth : ℚ)))
  else Except.error .invalidInput

/-- Attribute state of a constructed Wfm instance. A `none` field models a
Python attribute that the constructor never assigned. -/
structure WfmState where
  freq_Hz : Option ℚ
  duration_s : Option ℚ
  sample_rate_Hz : Option ℕ
  period_std_s : Option ℚ
  wfm : List ℚ
deriving DecidableEq

/-- Default sample rate `Wfm.C_DEFAULT_SR_Hz`. -/
def C_DEFAULT_SR_Hz : ℕ := 192000

/-- Model of `Wfm.__init__`: raise UnspecifiedSource when the file path and
both generation parameters are falsy; in file mode load everything from the
container and leave `freq_Hz`/`duration_s` unassigned; in generation mode
store the parameters, defaulting the sample rate only when a frequency was
given. `fs` maps a path to the container content behind it. -/
def wfmInit (freq_Hz duration_s : Option ℚ) (sample_rate_Hz : Option ℕ)
    (filepath : Option (List Char)) (fs : List Char → WaveFile) :
    Except WfmErr WfmState :=
  if ¬ strTruthy filepath ∧ (¬ qTruthy freq_Hz ∧ ¬ qTruthy duration_s) then
    Except.error .unspecifiedSource
  else if strTruthy filepath then
    match readWave (fs (filepath.getD [])) with
    | .error e => .error e
    | .ok sr_wfm =>
        .ok { freq_Hz := none, duration_s := none, sample_rate_Hz := some sr_wfm.1,
              period_std_s := none, wfm := sr_wfm.2 }
  else
    .ok { freq_Hz := freq_Hz, duration_s := duration_s,
          sample_rate_Hz :=
            if qTruthy freq_Hz then
              some (if natTruthy sample_rate_Hz then sample_rate_Hz.getD 0
                    else C_DEFAULT_SR_Hz)
            else none,
          period_std_s := none, wfm := [] }

/-- Model of the sanity check opening `WfmSquare.__init__`: the code tests
`filepath is not None and (period_std_s and freq_Hz) and
period_std_s > 0.25 * 1 / freq_Hz`, so it can only fire when a file path IS
supplied. -/
def squareStdGuard (filepath : Option (List Char)) (period_std_s freq_Hz : Option ℚ) :
    Bool :=
  filepath.isSome && qTruthy period_std_s && qTruthy freq_Hz
    && decide (period_std_s.getD 0 > 1/4 * 1 / freq_Hz.getD 0)

/-- Model of `WfmSquare.__init__`: run the sanity check, then the base
constructor, then record `period_std_s`. -/
def wfmSquareInit (freq_Hz duration_s period_std_s : Option ℚ)
    (sample_rate_Hz : Option ℕ) (filepath : Option (List Char))
    (fs : List Char → WaveFile) : Except WfmErr WfmState :=
  if squareStdGuard filepath period_std_s freq_Hz then
    Except.error .invalidParameter
  else
    (wfmInit freq_Hz duration_s sample_rate_Hz filepath fs).map
      (fun s => { s with period_std_s := period_std_s })

/-- A constructor call that completed without raising. -/
def isOkB : Except WfmErr WfmState → Bool
  | .ok _ => true
  | .error _ => false

/-- C1: evaluation of the code at the claim's failing input. With frequency
1, duration 1 and period standard deviation 1 — which violates the
documented bound, since 0.25·(1/1) < 1 — and no file path supplied, the
`WfmSquare` constructor completes without error: the sanity check tests
`filepath is not None` and therefore never fires in generation mode. -/
theorem c1_squareInit_violating_std_accepted (fs : List Char → WaveFile) :
    (1 : ℚ)/4 * 1 / 1 < 1
    ∧ isOkB (wfmSquareInit (some 1) (some 1) (some 1) none none fs) = true := by
  constructor
  · norm_num
  · simp [wfmSquareInit, squareStdGuard, wfmInit, strTruthy, qTruthy, natTruthy,
      Except.map, isOkB]

/-- C1 witness: the evaluation theorem instantiated at a concrete file
system. -/
theorem c1_squareInit_violating_std_accepted_witness :
    (1 : ℚ)/4 * 1 / 1 < 1
    ∧ isOkB (wfmSquareInit (some 1) (some 1) (some 1) none none
        (fun _ => ⟨0, 0, 0, []⟩)) = true :=
  c1_squareInit_violating_std_accepted (fun _ => ⟨0, 0, 0, []⟩)

/-- C6: evaluation of the code at the claim's failing input. Supplying only
a frequency (no duration, no file path) is accepted by `Wfm.__init__`, while
the claim demands an UnspecifiedSource error there; the error is raised only
when the file path, the frequency and the duration are all falsy. -/
theorem c6_init_single_param_accepted (fs : List Char → WaveFile) :
    isOkB (wfmInit (some 440) none none none fs) = true
    ∧ isOkB (wfmInit none (some 1) none none fs) = true
    ∧ wfmInit none none none none fs = .error .unspecifiedSource := by
  refine ⟨?_, ?_, ?_⟩ <;>
    simp [wfmInit, strTruthy, qTruthy, isOkB]

/-- C6 witness: the evaluation theorem instantiated at a concrete file
system. -/
theorem c6_init_single_param_accepted_witness :
    isOkB (wfmInit (some 440) none none none (fun _ => ⟨0, 0, 0, []⟩)) = true
    ∧ isOkB (wfmInit none (some 1) none none (fun _ => ⟨0, 0, 0, []⟩)) = true
    ∧ wfmInit none none none none (fun _ => ⟨0, 0, 0, []⟩)
        = .error .unspecifiedSource :=
  c6_init_single_param_accepted (fun _ => ⟨0, 0, 0, []⟩)

/-- C7 counterexample: loading purely from a file path yields an instance
whose sample rate is indeed the container's stored 44100, but whose
`freq_Hz` and `duration_s` attributes were never assigned (`none`): they are
not derived from the loaded content, refuting the claim's second half. -/
theorem c7_counterexample_fields_not_derived :
    Except.map (fun s : WfmState => (s.freq_Hz, s.duration_s, s.sample_rate_Hz))
        (wfmSquareInit none none none none (some ['a'])
          (fun _ => ⟨44100, 1, 2, [0, 100]⟩))
      = .ok (none, none, some 44100) := by
  simp [wfmSquareInit, squareStdGuard, wfmInit, readWave, strTruthy, qTruthy,
    Except.map]

/-- C7 amended: loading purely from a file path (with a supported sample
width) succeeds; the sample rate equals the container header's rate — never
a generator default — the buffer is the normalized mono content, and the
frequency and duration attributes are left unassigned, not derived. -/
theorem c7_file_loaded_state (fs : List Char → WaveFile) (path : List Char)
    (hpath : path ≠ [])
    (hw : (fs path).sampwidth = 2 ∨ (fs path).sampwidth = 4) :
    wfmSquareInit none none none none (some path) fs
      = .ok { freq_Hz := none, duration_s := none,
              sample_rate_Hz := some (fs path).framerate, period_std_s := none,
              wfm := (toMono (fs path).nchannels (fs path).frames).map
                  (fun (v : ℤ) => (v : ℚ) / (iinfoMax (fs path).sampwidth : ℚ)) } := by
  unfold wfmSquareInit squareStdGuard wfmInit readWave
  simp [strTruthy, qTruthy, hpath, hw, Except.map]

/-- C7 amended witness: a concrete mono 16-bit container at rate 44100. -/
theorem c7_file_loaded_state_witness :
    (['a'] : List Char) ≠ []
    ∧ ((2 : ℕ) = 2 ∨ (2 : ℕ) = 4)
    ∧ wfmSquareInit none none none none (some ['a'])
          (fun _ => ⟨44100, 1, 2, [0, 100]⟩)
        = .ok { freq_Hz := none, duration_s := none,
                sample_rate_Hz := some 44100, period_std_s := none,
                wfm := (toMono 1 [0, 100]).map
                    (fun (v : ℤ) => (v : ℚ) / ((iinfoMax 2 : ℤ) : ℚ)) } :=
  ⟨by decide, by decide,
    c7_file_loaded_state (fun _ => ⟨44100, 1, 2, [0, 100]⟩) ['a']
      (by decide) (by decide)⟩

/-! ## wfm.py: Wfm.write_wave scaling (src/utils/wfm.py lines 53-63) -/

/-- Python `max` over a list (used with nonempty buffers; the code raises on
an empty one). -/
def pyMax : List ℚ → ℚ
  | [] => 0
  | x :: xs => xs.foldl max x

/-- Maximum absolute sample value — the quantity the claim says the scale
factor divides by. -/
def maxAbs (l : List ℚ) : ℚ :=
  pyMax (l.map (fun x => |x|))

/-- Model of the pre-quantization scale factor of `Wfm.write_wave`:
`0.8 * (((2**16)/2)-1) / max(self.wfm)` — note the plain maximum, not the
maximum absolute value. -/
def writeWaveScale (wfm : List ℚ) : ℚ :=
  4/5 * (((2 : ℚ) ^ 16) / 2 - 1) / pyMax wfm

/-- The scaled buffer as it stands right before int16 quantization. -/
def writeWaveScaled (wfm : List ℚ) : List ℚ :=
  wfm.map (fun x => x * writeWaveScale wfm)

lemma foldl_max_map_mul (c : ℚ) (hc : 0 ≤ c) :
    ∀ (xs : List ℚ) (a : ℚ),
      ((xs.map (fun x => x * c)).foldl max (a * c)) = (xs.foldl max a) * c := by
  intro xs
  induction xs with
  | nil => intro a; rfl
  | cons x xs ih =>
    intro a
    simp only [List.map_cons, List.foldl_cons]
    rw [← max_mul_of_nonneg _ _ hc]
    exact ih (max a x)

lemma pyMax_scaled (wfm : List ℚ) (c : ℚ) (hc : 0 ≤ c) :
    pyMax (wfm.map (fun x => x * c)) = pyMax wfm * c := by
  cases wfm with
  | nil => simp [pyMax]
  | cons x xs =>
    simp only [pyMax, List.map_cons]
    exact foldl_max_map_mul c hc xs x

/-- C9 counterexample: on the buffer `[-2, 1]` the scale factor is computed
from the plain maximum 1, not the maximum absolute value 2, so it differs
from the claimed `0.8·32767 / maxAbs`; consequently the scaled signal's
peak absolute magnitude is not `0.8·32767` either. -/
theorem c9_counterexample_scale_not_maxabs :
    ¬ (writeWaveScale [-2, 1] = 4/5 * (((2 : ℚ) ^ 16) / 2 - 1) / maxAbs [-2, 1])
    ∧ ¬ (maxAbs (writeWaveScaled [-2, 1]) = 4/5 * (((2 : ℚ) ^ 16) / 2 - 1)) := by
  constructor
  · norm_num [writeWaveScale, pyMax, maxAbs, max_def]
  · norm_num [writeWaveScale, writeWaveScaled, pyMax, maxAbs, max_def,
      abs_of_pos, abs_of_nonneg]

/-- C9 amended: the scale factor is 80% of the full 16-bit range divided by
the buffer's plain maximum sample value; when that maximum is positive the
scaled signal's maximum sample value (though not necessarily its peak
absolute magnitude) equals `0.8 · 32767`. -/
theorem c9_write_scale (wfm : List ℚ) (h : 0 < pyMax wfm) :
    writeWaveScale wfm = 4/5 * (((2 : ℚ) ^ 16) / 2 - 1) / pyMax wfm
    ∧ pyMax (writeWaveScaled wfm) = 4/5 * (((2 : ℚ) ^ 16) / 2 - 1) := by
  refine ⟨rfl, ?_⟩
  have hc : 0 ≤ writeWaveScale wfm := by
    unfold writeWaveScale
    positivity
  rw [writeWaveScaled, pyMax_scaled wfm _ hc, writeWaveScale]
  rw [mul_comm, div_mul_cancel₀ _ (ne_of_gt h)]

/-- C9 amended witness: a concrete buffer with positive maximum. -/
theorem c9_write_scale_witness :
    0 < pyMax [1, 2]
    ∧ (writeWaveScale [1, 2] = 4/5 * (((2 : ℚ) ^ 16) / 2 - 1) / pyMax [1, 2]
      ∧ pyMax (writeWaveScaled [1, 2]) = 4/5 * (((2 : ℚ) ^ 16) / 2 - 1)) :=
  ⟨by decide, c9_write_scale [1, 2] (by decide)⟩

/-! ## wfm.py: filter list and zero-phase application
(src/utils/wfm.py lines 38-46 and 65-70) -/

/-- Filter description `FilterButterworth` (wfm.py lines 11-16). -/
structure FilterButterworth where
  sample_rate_Hz : ℕ
  cutoff_Hz : ℚ
  order : ℕ
  type : List Char

/-- Modelled from the spec: one output sample of a single-pass direct-form
IIR filter (`scipy.signal.lfilter` step), `y[n] = (Σ_i b[i]·x[n-i] −
Σ_{i≥1} a[i]·y[n-i]) / a[0]` with zero initial conditions. -/
def lfilterStep (b a x ys : List ℚ) (n : ℕ) : ℚ :=
  ((∑ i ∈ Finset.range b.length,
      if i ≤ n then b.getD i 0 * x.getD (n - i) 0 else 0)
    - ∑ i ∈ Finset.range a.length,
        if 1 ≤ i ∧ i ≤ n then a.getD i 0 * ys.getD (n - i) 0 else 0)
    / a.getD 0 0

/-- First `n` output samples of the single forward pass, built in order. -/
def lfilterAcc (b a x : List ℚ) : ℕ → List ℚ
  | 0 => []
  | n + 1 => lfilterAcc b a x n ++ [lfilterStep b a x (lfilterAcc b a x n) n]

/-- Modelled from the spec: a full forward pass produces one output sample
per input sample. -/
def lfilter (b a x : List ℚ) : List ℚ :=
  lfilterAcc b a x x.length

/-- Modelled from the spec: `scipy.signal.filtfilt` — the filter is applied
once forward and once backward so that group delay cancels. -/
def filtfilt (b a x : List ℚ) : List ℚ :=
  (lfilter b a (lfilter b a x).reverse).reverse

/-- Model of `Wfm._apply_filters`: fold the attached filter list, in
attachment order, over the held buffer (each entry pairs the settings with
the derived `[b, a]` coefficients). -/
def applyFilters (filter_list : List (FilterButterworth × (List ℚ × List ℚ)))
    (wfm : List ℚ) : List ℚ :=
  filter_list.foldl (fun w item => filtfilt item.2.1 item.2.2 w) wfm

lemma length_lfilterAcc (b a x : List ℚ) : ∀ n : ℕ, (lfilterAcc b a x n).length = n := by
  intro n
  induction n with
  | zero => rfl
  | succ m ih => simp [lfilterAcc, ih]

lemma length_filtfilt (b a x : List ℚ) : (filtfilt b a x).length = x.length := by
  simp [filtfilt, lfilter, length_lfilterAcc]

/-- C8: every zero-phase filter application returns a buffer of exactly the
input's length, and hence the whole filter pipeline, folded in attachment
order, preserves the buffer length. -/
theorem c8_filters_preserve_length :
    (∀ b a x : List ℚ, (filtfilt b a x).length = x.length)
    ∧ ∀ (filter_list : List (FilterButterworth × (List ℚ × List ℚ))) (wfm : List ℚ),
        (applyFilters filter_list wfm).length = wfm.length := by
  refine ⟨fun b a x => length_filtfilt b a x, ?_⟩
  intro filter_list
  induction filter_list with
  | nil => intro wfm; rfl
  | cons item rest ih =>
    intro wfm
    simp only [applyFilters, List.foldl_cons]
    rw [show List.foldl (fun w it => filtfilt it.2.1 it.2.2 w) (filtfilt item.2.1 item.2.2 wfm) rest
          = applyFilters rest (filtfilt item.2.1 item.2.2 wfm) from rfl]
    rw [ih (filtfilt item.2.1 item.2.2 wfm), length_filtfilt]

/-! ## wfm.py: WfmSquare._create_wfm (src/utils/wfm.py lines 114-139)

The `numpy` normal draw of rounded period lengths is externalized: the
generation loop takes the drawn sequence `periods_n` as an argument
(nonnegative sample counts, as produced by rounding draws whose standard
deviation is bounded by a quarter of the mean period). -/

/-- Model of the slice assignment `wfm[lo:hi] = 1.0`. -/
def setOnes (wfm : List ℚ) (lo hi : ℕ) : List ℚ :=
  List.ofFn (fun i : Fin wfm.length =>
    if lo ≤ (i : ℕ) ∧ (i : ℕ) < hi then 1 else wfm.get i)

/-- The generation loop: for each drawn period length `p` starting at the
running index `idx`, set `wfm[idx + half : min (idx + p) len] = 1` and
advance `idx` by `p`. -/
def buildLoop (half len : ℕ) : ℕ → List ℕ → List ℚ → List ℚ
  | _, [], wfm => wfm
  | idx, p :: ps, wfm =>
      buildLoop half len (idx + p) ps (setOnes wfm (idx + half) (min (idx + p) len))

/-- Model of `WfmSquare._create_wfm` with the drawn period sequence given:
`duration_n = ⌈duration·sr⌉` samples, all zero initially;
`half = ⌊(sr/freq)/2⌋` off samples at the start of every period (computed
from the nominal period, kept fractional); then the loop above from index
0. -/
def wfmSquareCreate (freq_Hz duration_s sample_rate_Hz : ℚ)
    (periods_n : List ℕ) : List ℚ :=
  buildLoop (⌊sample_rate_Hz / freq_Hz / 2⌋).toNat (⌈duration_s * sample_rate_Hz⌉).toNat
    0 periods_n (List.replicate (⌈duration_s * sample_rate_Hz⌉).toNat 0)

/-- Index `j` is written by some period of the remaining sequence when the
loop starts at `idx`. -/
def covered (half len : ℕ) : ℕ → List ℕ → ℕ → Bool
  | _, [], _ => false
  | idx, p :: ps, j =>
      (decide (idx + half ≤ j) && decide (j < min (idx + p) len))
        || covered half len (idx + p) ps j

lemma length_setOnes (wfm : List ℚ) (lo hi : ℕ) :
    (setOnes wfm lo hi).length = wfm.length := by
  simp [setOnes]

lemma getD_setOnes (wfm : List ℚ) (lo hi j : ℕ) (hj : j < wfm.length) :
    (setOnes wfm lo hi).getD j 0 = if lo ≤ j ∧ j < hi then 1 else wfm.getD j 0 := by
  have hj2 : j < (setOnes wfm lo hi).length := by
    rw [length_setOnes]; exact hj
  rw [List.getD_eq_getElem _ _ hj2, List.getD_eq_getElem _ _ hj]
  unfold setOnes
  rw [List.getElem_ofFn]
  simp

lemma length_buildLoop (half len : ℕ) :
    ∀ (ps : List ℕ) (idx : ℕ) (wfm : List ℚ),
      (buildLoop half len idx ps wfm).length = wfm.length := by
  intro ps
  induction ps with
  | nil => intro idx wfm; rfl
  | cons p ps ih =>
    intro idx wfm
    rw [buildLoop, ih, length_setOnes]

lemma getD_buildLoop (half len : ℕ) :
    ∀ (ps : List ℕ) (idx : ℕ) (wfm : List ℚ) (j : ℕ), j < wfm.length →
      (buildLoop half len idx ps wfm).getD j 0
        = if covered half len idx ps j then 1 else wfm.getD j 0 := by
  intro ps
  induction ps with
  | nil => intro idx wfm j hj; simp [buildLoop, covered]
  | cons p ps ih =>
    intro idx wfm j hj
    rw [buildLoop]
    have hj2 : j < (setOnes wfm (idx + half) (min (idx + p) len)).length := by
      rw [length_setOnes]; exact hj
    rw [ih (idx + p) _ j hj2, getD_setOnes _ _ _ _ hj]
    rw [covered]
    by_cases hrest : covered half len (idx + p) ps j
    · simp [hrest]
    · by_cases hhere : idx + half ≤ j ∧ j < min (idx + p) len
      · simp [hrest, hhere]
      · simp only [Bool.or_eq_true, decide_eq_true_eq, Bool.and_eq_true] at *
        rw [if_neg hrest, if_neg hhere, if_neg]
        intro hcon
        rcases hcon with hcon | hcon
        · exact hhere ⟨hcon.1, hcon.2⟩
        · exact hrest hcon

lemma sumTake_succ : ∀ (ps : List ℕ) (m : ℕ), m < ps.length →
    (ps.take (m + 1)).sum = (ps.take m).sum + ps.getD m 0 := by
  intro ps
  induction ps with
  | nil => intro m hm; simp at hm
  | cons p ps ih =>
    intro m hm
    cases m with
    | zero => simp
    | succ m' =>
      simp only [List.take_succ_cons, List.sum_cons, List.getD_cons_succ]
      rw [ih m' (by simpa using hm)]
      omega

lemma sumTake_mono : ∀ (ps : List ℕ) (a b : ℕ), a ≤ b →
    (ps.take a).sum ≤ (ps.take b).sum := by
  intro ps
  induction ps with
  | nil => simp
  | cons p ps ih =>
    intro a b hab
    cases a with
    | zero => simp
    | succ a' =>
      cases b with
      | zero => omega
      | succ b' =>
        simp only [List.take_succ_cons, List.sum_cons]
        exact Nat.add_le_add_left (ih a' b' (by omega)) p

lemma sumTake_le_sum (ps : List ℕ) (a : ℕ) : (ps.take a).sum ≤ ps.sum := by
  conv_rhs => rw [← List.take_append_drop a ps]
  rw [List.sum_append]
  omega

lemma covered_iff (half len : ℕ) : ∀ (ps : List ℕ) (idx j : ℕ),
    covered half len idx ps j = true
      ↔ ∃ i : ℕ, i < ps.length
          ∧ idx + (ps.take i).sum + half ≤ j
          ∧ j < min (idx + (ps.take i).sum + ps.getD i 0) len := by
  intro ps
  induction ps with
  | nil => intro idx j; simp [covered]
  | cons p ps ih =>
    intro idx j
    rw [covered]
    simp only [Bool.or_eq_true, Bool.and_eq_true, decide_eq_true_eq]
    constructor
    · rintro (⟨h1, h2⟩ | hrest)
      · exact ⟨0, by simp, by simpa using h1, by simpa using h2⟩
      · obtain ⟨m, hm, hlo, hhi⟩ := (ih (idx + p) j).mp hrest
        refine ⟨m + 1, by simpa using Nat.succ_lt_succ hm, ?_, ?_⟩
        · simp only [List.take_succ_cons, List.sum_cons]
          omega
        · simp only [List.take_succ_cons, List.sum_cons, List.getD_cons_succ]
          omega
    · rintro ⟨i, hi, hlo, hhi⟩
      cases i with
      | zero =>
        left
        constructor
        · simpa using hlo
        · simpa using hhi
      | succ m =>
        right
        refine (ih (idx + p) j).mpr ⟨m, by simpa using hi, ?_, ?_⟩
        · simp only [List.take_succ_cons, List.sum_cons] at hlo
          omega
        · simp only [List.take_succ_cons, List.sum_cons, List.getD_cons_succ] at hhi
          omega

lemma getD_replicate_zero (n j : ℕ) : (List.replicate n (0 : ℚ)).getD j 0 = 0 := by
  by_cases hj : j < n
  · rw [List.getD_eq_getElem _ _ (by simpa using hj), List.getElem_replicate]
  · rw [List.getD_eq_default]
    simpa using hj

/-- C2: for every generation of a square waveform (positive frequency,
duration and sample rate, drawn period sequence `periods_n`), the raw buffer
has exactly `⌈duration·sr⌉` samples; within each drawn period starting at
running index `idx = Σ` of the earlier periods, the first `⌊(sr/f)/2⌋`
samples (the nominal half-period, the same for every period) are 0 and the
samples from `idx + ⌊(sr/f)/2⌋` up to `min (idx + P_i) duration_n` are 1;
once the sequence is exhausted every remaining sample stays 0. -/
theorem c2_square_waveform_structure (freq_Hz duration_s sample_rate_Hz : ℚ)
    (hf : 0 < freq_Hz) (hd : 0 < duration_s) (hsr : 0 < sample_rate_Hz)
    (periods_n : List ℕ) :
    (wfmSquareCreate freq_Hz duration_s sample_rate_Hz periods_n).length
        = (⌈duration_s * sample_rate_Hz⌉).toNat
    ∧ (∀ i j : ℕ, i < periods_n.length →
        (periods_n.take i).sum ≤ j →
        j < (periods_n.take i).sum + (⌊sample_rate_Hz / freq_Hz / 2⌋).toNat →
        j < (⌈duration_s * sample_rate_Hz⌉).toNat →
        (wfmSquareCreate freq_Hz duration_s sample_rate_Hz periods_n).getD j 0 = 0)
    ∧ (∀ i j : ℕ, i < periods_n.length →
        (periods_n.take i).sum + (⌊sample_rate_Hz / freq_Hz / 2⌋).toNat ≤ j →
        j < min ((periods_n.take i).sum + periods_n.getD i 0)
              (⌈duration_s * sample_rate_Hz⌉).toNat →
        (wfmSquareCreate freq_Hz duration_s sample_rate_Hz periods_n).getD j 0 = 1)
    ∧ (∀ j : ℕ, periods_n.sum ≤ j →
        (wfmSquareCreate freq_Hz duration_s sample_rate_Hz periods_n).getD j 0 = 0) := by
  refine ⟨?_, ?_, ?_, ?_⟩
  · unfold wfmSquareCreate
    rw [length_buildLoop, List.length_replicate]
  · intro i j hi hlo hhi hn
    have hlen : j < (List.replicate (⌈duration_s * sample_rate_Hz⌉).toNat (0 : ℚ)).length := by
      simpa using hn
    unfold wfmSquareCreate
    rw [getD_buildLoop _ _ _ _ _ _ hlen, if_neg, getD_replicate_zero]
    intro hcov
    rw [covered_iff] at hcov
    obtain ⟨m, hm, hmlo, hmhi⟩ := hcov
    rw [lt_min_iff] at hmhi
    rcases lt_or_le m i with hmi | hmi
    · have h1 := sumTake_succ periods_n m hm
      have h2 := sumTake_mono periods_n (m + 1) i hmi
      omega
    · have h2 := sumTake_mono periods_n i m hmi
      omega
  · intro i j hi hlo hhi
    have hjn : j < (⌈duration_s * sample_rate_Hz⌉).toNat :=
      lt_of_lt_of_le hhi (min_le_right _ _)
    have hlen : j < (List.replicate (⌈duration_s * sample_rate_Hz⌉).toNat (0 : ℚ)).length := by
      simpa using hjn
    unfold wfmSquareCreate
    rw [getD_buildLoop _ _ _ _ _ _ hlen, if_pos]
    rw [covered_iff]
    rw [lt_min_iff] at hhi
    refine ⟨i, hi, by omega, ?_⟩
    rw [lt_min_iff]
    omega
  · intro j hj
    by_cases hn : j < (⌈duration_s * sample_rate_Hz⌉).toNat
    · have hlen : j < (List.replicate (⌈duration_s * sample_rate_Hz⌉).toNat (0 : ℚ)).length := by
        simpa using hn
      unfold wfmSquareCreate
      rw [getD_buildLoop _ _ _ _ _ _ hlen, if_neg, getD_replicate_zero]
      intro hcov
      rw [covered_iff] at hcov
      obtain ⟨m, hm, hmlo, hmhi⟩ := hcov
      rw [lt_min_iff] at hmhi
      have h1 := sumTake_succ periods_n m hm
      have h2 := sumTake_le_sum periods_n (m + 1)
      omega
    · unfold wfmSquareCreate
      rw [List.getD_eq_default]
      rw [length_buildLoop, List.length_replicate]
      omega

/-- C2 witness: frequency 2, duration 3, sample rate 4, drawn periods
`[2, 3]`. -/
theorem c2_square_waveform_structure_witness :
    (0 : ℚ) < 2 ∧ (0 : ℚ) < 3 ∧ (0 : ℚ) < 4
    ∧ ((wfmSquareCreate 2 3 4 [2, 3]).length = (⌈(3 : ℚ) * 4⌉).toNat
      ∧ (∀ i j : ℕ, i < ([2, 3] : List ℕ).length →
          (([2, 3] : List ℕ).take i).sum ≤ j →
          j < (([2, 3] : List ℕ).take i).sum + (⌊(4 : ℚ) / 2 / 2⌋).toNat →
          j < (⌈(3 : ℚ) * 4⌉).toNat →
          (wfmSquareCreate 2 3 4 [2, 3]).getD j 0 = 0)
      ∧ (∀ i j : ℕ, i < ([2, 3] : List ℕ).length →
          (([2, 3] : List ℕ).take i).sum + (⌊(4 : ℚ) / 2 / 2⌋).toNat ≤ j →
          j < min ((([2, 3] : List ℕ).take i).sum + ([2, 3] : List ℕ).getD i 0)
                (⌈(3 : ℚ) * 4⌉).toNat →
          (wfmSquareCreate 2 3 4 [2, 3]).getD j 0 = 1)
      ∧ (∀ j : ℕ, ([2, 3] : List ℕ).sum ≤ j →
          (wfmSquareCreate 2 3 4 [2, 3]).getD j 0 = 0)) :=
  ⟨by decide, by decide, by decide,
    c2_square_waveform_structure 2 3 4 (by decide) (by decide) (by decide) [2, 3]⟩

end ToneComp
